import Mathlib

/-!
A shallow embedding of the six encoders of `src/services/algorithms.ts`
(Run-Length, Huffman, LZW, Golomb, Arithmetic, Tunstall), together with
theorems settling the specification claims about them.

Modelling conventions:
* JS strings are `List Char`; JS string concatenation is list append.
* JS numbers that are always integers in the source are `Nat`/`Int`.
* JS floating-point probability arithmetic is modelled exactly by
  unreduced fractions `Frac` (integer numerator, natural denominator).
  Every numeric fact the claims probe is exactly representable in
  binary floating point, so the exact-rational model agrees with the
  source on those values; `Frac.toRat` bridges to `ℚ` in statements.
* JS `Array.prototype.sort` is stable (ES2019); it is modelled by a
  stable insertion sort with the same comparator.
* JS objects used as string-keyed maps are association lists; the
  source only inserts a key after checking it is absent, so lookup
  order is immaterial and new entries are consed on the front.
* `while` loops whose measure is not structural take an explicit fuel
  argument chosen large enough to cover every terminating run of the
  source loop; exhausted fuel is reported by a `Bool` flag so that a
  run of the JS loop that never exits is distinguishable.
-/

set_option maxRecDepth 100000

namespace CompressionModel

/-! ### Generic helpers -/

/-- JS `String.prototype.padStart(target, pad)` on a list of characters. -/
def padStart (target : Nat) (pad : Char) (s : List Char) : List Char :=
  List.replicate (target - s.length) pad ++ s

/-- Fuelled core of binary printing: digits of `n` in base 2, most
significant first, empty for `n = 0`. -/
def natToBinAux : Nat → Nat → List Char
  | 0, _ => []
  | fuel + 1, n =>
    if n = 0 then []
    else natToBinAux fuel (n / 2) ++ [if n % 2 = 1 then '1' else '0']

/-- JS `n.toString(2)` for a non-negative integer `n`. -/
def natToBin (n : Nat) : List Char :=
  if n = 0 then ['0'] else natToBinAux n n

/-- JS `String(n)` / template interpolation of a non-negative integer. -/
def decStr (n : Nat) : List Char :=
  Nat.toDigits 10 n

/-- Association-list lookup: the model of reading `obj[key]` on a JS
object used as a map (`some` = present, `none` = `undefined`). -/
def dictFind {κ ν : Type} [DecidableEq κ] : List (κ × ν) → κ → Option ν
  | [], _ => none
  | (k, v) :: rest, key => if key = k then some v else dictFind rest key

/-- Pair every list element with its index, starting at `k`
(the model of JS `forEach((item, index) => ...)`). -/
def withIdx {α : Type} (k : Nat) : List α → List (Nat × α)
  | [] => []
  | a :: as => (k, a) :: withIdx (k + 1) as

/-- Boolean test that `p` is an initial segment of `s`
(JS `s.startsWith(p)` / `String.prototype.startsWith(p, i)` after
dropping `i` characters). -/
def codePreB : List Char → List Char → Bool
  | [], _ => true
  | _ :: _, [] => false
  | a :: as, b :: bs => a == b && codePreB as bs

/-- JS array joining with a single-space separator. -/
def joinSpace : List (List Char) → List Char
  | [] => []
  | [t] => t
  | t :: t2 :: ts => t ++ ' ' :: joinSpace (t2 :: ts)

/-- The list rendering of `undefined` that JS produces when an
`undefined` lookup result is appended to a string. -/
def undefStr : List Char := "undefined".toList

/-! ### Exact fractions

`Frac` models the JS double values that arise as products and sums of
input-symbol probabilities.  Values are kept unreduced; denominators
are positive in every value the encoders construct, so the
cross-multiplication comparison is exact rational comparison. -/

structure Frac where
  num : Int
  den : Nat
deriving DecidableEq

/-- The rational value of a fraction. -/
def Frac.toRat (a : Frac) : ℚ := (a.num : ℚ) / (a.den : ℚ)

/-- Exact product (JS `a * b` on the modelled values). -/
def Frac.mul (a b : Frac) : Frac := ⟨a.num * b.num, a.den * b.den⟩

/-- Exact sum (JS `a + b` on the modelled values). -/
def Frac.add (a b : Frac) : Frac := ⟨a.num * b.den + b.num * a.den, a.den * b.den⟩

/-- Exact difference (JS `a - b` on the modelled values). -/
def Frac.sub (a b : Frac) : Frac := ⟨a.num * b.den - b.num * a.den, a.den * b.den⟩

/-- Exact comparison `a ≤ b` by cross multiplication (valid for the
positive denominators the encoders produce). -/
def Frac.leB (a b : Frac) : Bool := a.num * b.den ≤ b.num * a.den

/-- The fraction `n / d`. -/
def Frac.ofDiv (n d : Nat) : Frac := ⟨n, d⟩

/-! ### The shared output record

`CompressionResult` of `src/types.ts`, parametrised by the
algorithm-specific trace-step type.  `ratio` is the exact rational
value of `(1 - compressedSize/originalSize) * 100`. -/

structure CompressionResult (σ : Type) where
  encoded : List Char
  originalSize : Nat
  compressedSize : Nat
  ratio : ℚ
  steps : List σ
deriving DecidableEq

/-- The zero-valued result every encoder returns for empty input. -/
def zeroResult (σ : Type) : CompressionResult σ := ⟨[], 0, 0, 0, []⟩

/-- The `ratio` field: `(1 - compressedSize / originalSize) * 100`. -/
def ratioOf (compressedSize originalSize : Nat) : ℚ :=
  (1 - (compressedSize : ℚ) / (originalSize : ℚ)) * 100

/-! ### RLE (`compressRLE`) -/

/-- One RLE trace step: `{ char, count, code }`. -/
structure RLEStep where
  char : Char
  count : Nat
  code : List Char
deriving DecidableEq

/-- The run-scanning loop of `compressRLE`: `c` is the symbol of the
current run, `count` its length so far, and the list argument the
remaining input.  Returns the encoded stream and the trace steps. -/
def rleAux (c : Char) (count : Nat) : List Char → List Char × List RLEStep
  | [] => (decStr count ++ [c], [⟨c, count, decStr count ++ [c]⟩])
  | d :: rest =>
    if c = d then rleAux c (count + 1) rest
    else
      let p := rleAux d 1 rest
      ((decStr count ++ [c]) ++ p.1, ⟨c, count, decStr count ++ [c]⟩ :: p.2)

/-- `compressRLE` of `src/services/algorithms.ts`. -/
def compressRLE : List Char → CompressionResult RLEStep
  | [] => zeroResult RLEStep
  | c :: rest =>
    let p := rleAux c 1 rest
    ⟨p.1, (c :: rest).length * 8, p.2.length * 16,
      ratioOf (p.2.length * 16) ((c :: rest).length * 8), p.2⟩

/-! ### Frequency tables

`freqs[char] = (freqs[char] || 0) + 1` over a JS object keeps first
occurrence order for `Object.entries` / `Object.keys`; the model is an
association list in first-occurrence order. -/

/-- Add one occurrence of `c` to a frequency table. -/
def bump (c : Char) : List (Char × Nat) → List (Char × Nat)
  | [] => [(c, 1)]
  | (d, n) :: rest => if c = d then (d, n + 1) :: rest else (d, n) :: bump c rest

/-- The frequency table of a string, in first-occurrence order
(the model of the `freqs` object together with `Object.entries`). -/
def freqList (s : List Char) : List (Char × Nat) :=
  s.foldl (fun acc c => bump c acc) []

/-! ### Huffman (`compressHuffman`) -/

/-- A Huffman tree node: a leaf holds a symbol (`char !== null`), an
internal node only the summed frequency.  The `id` strings of the
source are visualisation-only and not modelled. -/
inductive HTree where
  | leaf (c : Char) (freq : Nat)
  | node (freq : Nat) (l r : HTree)
deriving DecidableEq

/-- The frequency of a node. -/
def HTree.freq : HTree → Nat
  | .leaf _ f => f
  | .node f _ _ => f

/-- Stable insertion into a list sorted by ascending frequency: the new
element goes before the first strictly larger one, and before later
equals only when it compares strictly smaller, matching a stable JS
`sort((a, b) => a.freq - b.freq)` when applied by `sortFreqAsc`. -/
def insFreqAsc (x : HTree) : List HTree → List HTree
  | [] => [x]
  | y :: ys => if x.freq ≤ y.freq then x :: y :: ys else y :: insFreqAsc x ys

/-- Stable ascending sort by frequency (the JS comparator is applied to
exact integer counts, so float subtraction agrees with it). -/
def sortFreqAsc (l : List HTree) : List HTree :=
  l.foldr insFreqAsc []

/-- The greedy merge loop of `compressHuffman`: sort ascending, take the
two smallest as left and right child, push the merged node at the end,
repeat while more than one node remains.  `fuel = initial length`
strictly bounds the number of merges, so the fuelled model covers every
run of the source loop. -/
def buildLoop : Nat → List HTree → HTree
  | 0, ns => ns.headD (.leaf ' ' 0)
  | fuel + 1, ns =>
    match sortFreqAsc ns with
    | [] => .leaf ' ' 0
    | [t] => t
    | a :: b :: rest => buildLoop fuel (rest ++ [.node (a.freq + b.freq) a b])

/-- `generateCodes`: depth-first walk emitting `(symbol, path)` pairs,
`'0'` on the left branch and `'1'` on the right branch; the list order
is the insertion order of the `codes` object of the source. -/
def genCodes : HTree → List Char → List (Char × List Char)
  | .leaf c _, code => [(c, code)]
  | .node _ l r, code => genCodes l (code ++ ['0']) ++ genCodes r (code ++ ['1'])

/-- One Huffman trace step: `{ char, code, freq }`. -/
structure HuffStep where
  char : Char
  code : List Char
  freq : Nat
deriving DecidableEq

/-- The Huffman output record: the shared fields plus the code table
(`dictionary`) and the tree root. -/
structure HuffmanResult where
  encoded : List Char
  originalSize : Nat
  compressedSize : Nat
  ratio : ℚ
  steps : List HuffStep
  dictionary : List (Char × List Char)
  tree : Option HTree
deriving DecidableEq

/-- The zero-valued Huffman result (the source's empty-input object has
no `dictionary`/`tree` fields; the model uses `[]`/`none`). -/
def zeroHuffman : HuffmanResult := ⟨[], 0, 0, 0, [], [], none⟩

/-- Encode the input through a code table; a missing symbol appends the
string `"undefined"` exactly as JS `encoded += codes[char]` would. -/
def encodeWith (codes : List (Char × List Char)) (s : List Char) : List Char :=
  s.flatMap (fun ch => (dictFind codes ch).getD undefStr)

/-- `compressHuffman` of `src/services/algorithms.ts`. -/
def compressHuffman (s : List Char) : HuffmanResult :=
  if s.isEmpty then zeroHuffman
  else
    match freqList s with
    | [] => zeroHuffman -- unreachable: a non-empty input has a non-empty table
    | [(c, f)] =>
      let codes := [(c, ['0'])]
      let encoded := encodeWith codes s
      ⟨encoded, s.length * 8, encoded.length,
        ratioOf encoded.length (s.length * 8),
        [⟨c, ['0'], f⟩], codes, some (.leaf c f)⟩
    | x :: y :: rest =>
      let fl := x :: y :: rest
      let nodes := fl.map (fun p => HTree.leaf p.1 p.2)
      let root := buildLoop nodes.length nodes
      let codes := genCodes root []
      let encoded := encodeWith codes s
      ⟨encoded, s.length * 8, encoded.length,
        ratioOf encoded.length (s.length * 8),
        codes.map (fun p => ⟨p.1, p.2, (dictFind fl p.1).getD 0⟩),
        codes, some root⟩

/-! ### LZW (`compressLZW`) -/

/-- The seeded dictionary entries for byte values `0, …, n-1`
(`dictionary[String.fromCharCode(i)] = i`), most recent first; key
lookup does not depend on the order because all keys are distinct. -/
def lzwSeedAux : Nat → List (List Char × Nat)
  | 0 => []
  | n + 1 => ([Char.ofNat n], n) :: lzwSeedAux n

/-- The initial LZW dictionary: the 256 single-byte strings mapped to
their own code value. -/
def lzwSeed : List (List Char × Nat) := lzwSeedAux 256

/-- One LZW trace step: `{ step, w, k, output, addedToDict, newCode }`.
`k` is a one-character string, or `"EOF"` on the flush step; `output`
is `none` when the looked-up code is `undefined`; `addedToDict` is
`"-"` and `newCode` is `none` on the flush step, matching the string
placeholders of the source. -/
structure LZWStep where
  step : Nat
  w : List Char
  k : List Char
  output : Option Nat
  addedToDict : List Char
  newCode : Option Nat
deriving DecidableEq

/-- The mutable state of the LZW scan. -/
structure LZWState where
  w : List Char
  dict : List (List Char × Nat)
  size : Nat
  codes : List (Option Nat)
  steps : List LZWStep
deriving DecidableEq

/-- One iteration of the LZW loop body on the next character `c`. -/
def lzwStepF (st : LZWState) (c : Char) : LZWState :=
  let wc := st.w ++ [c]
  match dictFind st.dict wc with
  | some _ => ⟨wc, st.dict, st.size, st.codes, st.steps⟩
  | none =>
    ⟨[c], (wc, st.size) :: st.dict, st.size + 1,
      st.codes ++ [dictFind st.dict st.w],
      st.steps ++ [⟨st.steps.length + 1, st.w, [c], dictFind st.dict st.w, wc, some st.size⟩]⟩

/-- The LZW scan over the whole input. -/
def lzwRun : LZWState → List Char → LZWState
  | st, [] => st
  | st, c :: rest => lzwRun (lzwStepF st c) rest

/-- The final flush: emit the pending prefix `w` unless it is empty. -/
def lzwFlush (st : LZWState) : LZWState :=
  if st.w = [] then st
  else
    ⟨st.w, st.dict, st.size,
      st.codes ++ [dictFind st.dict st.w],
      st.steps ++ [⟨st.steps.length + 1, st.w, "EOF".toList, dictFind st.dict st.w, "-".toList, none⟩]⟩

/-- The complete LZW state after scanning and flushing `s`. -/
def lzwFinal (s : List Char) : LZWState :=
  lzwFlush (lzwRun ⟨[], lzwSeed, 256, [], []⟩ s)

/-- The sequence of codes `compressLZW` emits (`result` in the source);
`none` models an `undefined` lookup result being pushed. -/
def lzwCodes (s : List Char) : List (Option Nat) :=
  (lzwFinal s).codes

/-- Decimal rendering of one emitted code inside the space-joined `result`;
JS renders an `undefined` entry as the string `"undefined"`. -/
def renderCode : Option Nat → List Char
  | some n => decStr n
  | none => undefStr

/-- `compressLZW` of `src/services/algorithms.ts`. -/
def compressLZW (s : List Char) : CompressionResult LZWStep :=
  if s.isEmpty then zeroResult LZWStep
  else
    let fin := lzwFinal s
    ⟨joinSpace (fin.codes.map renderCode), s.length * 8, fin.codes.length * 12,
      ratioOf (fin.codes.length * 12) (s.length * 8), fin.steps⟩

/-! ### Golomb (`compressGolomb`) -/

/-- A separator character of the split pattern of the source,
`/[\s,]+/` (the claims only exercise ASCII whitespace; the other
Unicode code points JS `\s` matches never appear in them). -/
def isSep (c : Char) : Bool :=
  c = ' ' || c = '\t' || c = '\n' || c = '\r' || c = ','

/-- JS `str.split(/[\s,]+/)`: tokens between maximal separator runs,
with an empty token at an end that starts or finishes with a
separator.  The `Bool` is true while a separator run is being skipped;
the accumulator holds the pending token. -/
def splitAux : List Char → Bool → List Char → List (List Char)
  | [], true, _ => [[]]
  | [], false, acc => [acc]
  | c :: rest, true, _ =>
    if isSep c then splitAux rest true [] else splitAux rest false [c]
  | c :: rest, false, acc =>
    if isSep c then acc :: splitAux rest true [] else splitAux rest false (acc ++ [c])

/-- Token list of an input string. -/
def splitSeps (s : List Char) : List (List Char) :=
  splitAux s false []

/-- Value of a decimal digit character, if any. -/
def decDigit (c : Char) : Option Nat :=
  if '0' ≤ c ∧ c ≤ '9' then some (c.toNat - '0'.toNat) else none

/-- Value of a hexadecimal digit character, if any. -/
def hexDigit (c : Char) : Option Nat :=
  if '0' ≤ c ∧ c ≤ '9' then some (c.toNat - '0'.toNat)
  else if 'a' ≤ c ∧ c ≤ 'f' then some (c.toNat - 'a'.toNat + 10)
  else if 'A' ≤ c ∧ c ≤ 'F' then some (c.toNat - 'A'.toNat + 10)
  else none

/-- Accumulate the value of the longest digit prefix. -/
def digitsAcc (dv : Char → Option Nat) (base : Nat) : List Char → Nat → Nat
  | [], acc => acc
  | c :: rest, acc =>
    match dv c with
    | some d => digitsAcc dv base rest (acc * base + d)
    | none => acc

/-- Whether the string starts with at least one digit. -/
def hasDigit (dv : Char → Option Nat) : List Char → Bool
  | [] => false
  | c :: _ => (dv c).isSome

/-- JS `parseInt(token)` with no radix argument on a whitespace-free
token: optional sign, then a `0x`/`0X` prefix selects base 16,
otherwise base 10; the longest digit prefix is converted and the rest
ignored; no digits means `NaN`, modelled as `none`. -/
def jsParseInt (t : List Char) : Option Int :=
  let signed : Int × List Char :=
    match t with
    | '-' :: r => (-1, r)
    | '+' :: r => (1, r)
    | r => (1, r)
  let body : Option Nat :=
    match signed.2 with
    | '0' :: x :: r2 =>
      if x = 'x' ∨ x = 'X' then
        if hasDigit hexDigit r2 then some (digitsAcc hexDigit 16 r2 0) else none
      else if hasDigit decDigit signed.2 then some (digitsAcc decDigit 10 signed.2 0) else none
    | r =>
      if hasDigit decDigit r then some (digitsAcc decDigit 10 r 0) else none
  body.map (fun n => signed.1 * n)

/-- The parsed number list of `compressGolomb`: split, `parseInt`,
keep the non-NaN non-negative values. -/
def golombNumbers (s : List Char) : List Nat :=
  ((((splitSeps s).filterMap jsParseInt).filter (fun n => 0 ≤ n)).map Int.toNat)

/-- Fuelled ceiling of `log2 m` (64 units of fuel cover every value a
JS double can hold exactly; `Math.ceil(Math.log2(M))` agrees with the
exact value on the divisors the claims use). -/
def clog2Fuel : Nat → Nat → Nat
  | 0, _ => 0
  | fuel + 1, m => if m ≤ 1 then 0 else clog2Fuel fuel ((m + 1) / 2) + 1

/-- `b = Math.ceil(Math.log2(M))`. -/
def golombB (M : Nat) : Nat := clog2Fuel 64 M

/-- `cutoff = Math.pow(2, b) - M`. -/
def golombCutoff (M : Nat) : Nat := 2 ^ golombB M - M

/-- One Golomb trace step: `{ number, q, r, unary, binary, code }`. -/
structure GolombStep where
  number : Nat
  q : Nat
  r : Nat
  unary : List Char
  binary : List Char
  code : List Char
deriving DecidableEq

/-- The per-number encoding of `compressGolomb`. -/
def golombStepOf (M : Nat) (n : Nat) : GolombStep :=
  let b := golombB M
  let cutoff := golombCutoff M
  let q := n / M
  let r := n % M
  let unary := List.replicate q '1' ++ ['0']
  let binary : List Char :=
    if M = 1 then []
    else if r < cutoff then padStart (b - 1) '0' (natToBin r)
    else padStart b '0' (natToBin (r + cutoff))
  ⟨n, q, r, unary, binary, unary ++ binary⟩

/-- The encoding loop of `compressGolomb`: per number, append
`unary + binary` to the stream and push the trace step. -/
def golombEncodeAux (M : Nat) : List Nat → List Char × List GolombStep
  | [] => ([], [])
  | n :: ns =>
    let st := golombStepOf M n
    let p := golombEncodeAux M ns
    (st.code ++ p.1, st :: p.2)

/-- `compressGolomb` downstream of parsing: everything after the
`numbers` list is fixed. -/
def golombFromNumbers (numbers : List Nat) (mParam : Int) : CompressionResult GolombStep :=
  if numbers.isEmpty then zeroResult GolombStep
  else
    let M := (max 1 mParam).toNat
    let p := golombEncodeAux M numbers
    ⟨p.1, numbers.length * 32, p.1.length,
      ratioOf p.1.length (numbers.length * 32), p.2⟩

/-- `compressGolomb` of `src/services/algorithms.ts`; `mParam` is the
divisor parameter (`Math.max(1, Math.floor(mParam))` is applied; the
claims only use integral divisors). -/
def compressGolomb (s : List Char) (mParam : Int) : CompressionResult GolombStep :=
  golombFromNumbers (golombNumbers s) mParam

/-! ### Arithmetic (`compressArithmetic`)

The interval arithmetic is modelled exactly over `Frac`.  The
`compressedSize`/`ratio` fields of the source are computed from a
floating-point Shannon entropy (`Math.log2` of each probability),
which is transcendental and has no exact executable embedding; those
two fields are therefore not modelled (no claim probes them outside
the empty-input branch, where the source returns literal zeros).  The
`rangeStr` field of each step is `toFixed(6)` presentation of the two
bounds recorded in the same step and is likewise not modelled. -/

/-- One arithmetic trace step: `{ char, low, high }` with exact bounds. -/
structure ArithStep where
  char : Char
  low : Frac
  high : Frac
deriving DecidableEq

/-- The arithmetic output record (see the section comment for the two
unmodelled float fields). -/
structure ArithResult where
  encoded : List Char
  originalSize : Nat
  steps : List ArithStep
  dictionary : List (Char × Frac × Frac × Frac)
  truncated : Bool
deriving DecidableEq

/-- The zero-valued arithmetic result for empty input. -/
def zeroArith : ArithResult := ⟨[], 0, [], [], false⟩

/-- Stable insertion into a list of characters sorted ascending by code
point (JS default `sort()` on the single-character keys). -/
def insCharAsc (c : Char) : List Char → List Char
  | [] => [c]
  | d :: ds => if c.toNat ≤ d.toNat then c :: d :: ds else d :: insCharAsc c ds

/-- `Object.keys(freqs).sort()` on single-character keys. -/
def sortCharsAsc (l : List Char) : List Char :=
  l.foldr insCharAsc []

/-- The cumulative probability table: each sorted symbol maps to
`(start, end, p)` with `p = freq/total` and contiguous intervals. -/
def arithProbsAux (fl : List (Char × Nat)) (total : Nat) : List Char → Frac → List (Char × Frac × Frac × Frac)
  | [], _ => []
  | c :: cs, start =>
    let p := Frac.ofDiv ((dictFind fl c).getD 0) total
    (c, start, start.add p, p) :: arithProbsAux fl total cs (start.add p)

/-- The probability table of an input (frequencies over the truncated
input, symbols in lexicographic order, cumulated from 0). -/
def arithProbsOf (safe : List Char) : List (Char × Frac × Frac × Frac) :=
  arithProbsAux (freqList safe) safe.length (sortCharsAsc ((freqList safe).map Prod.fst)) ⟨0, 1⟩

/-- The interval-narrowing loop: per symbol, shrink `[low, high)` to
the symbol's sub-interval and record a trace step with the new bounds. -/
def arithNarrow (probs : List (Char × Frac × Frac × Frac)) : List Char → Frac → Frac → List ArithStep × Frac × Frac
  | [], lo, hi => ([], lo, hi)
  | c :: cs, lo, hi =>
    let pr := (dictFind probs c).getD (⟨0, 1⟩, ⟨0, 1⟩, ⟨0, 1⟩)
    let range := hi.sub lo
    let nh := lo.add (range.mul pr.2.1)
    let nl := lo.add (range.mul pr.1)
    let rest := arithNarrow probs cs nl nh
    (⟨c, nl, nh⟩ :: rest.1, rest.2)

/-- The input prefix the source actually encodes (`input.slice(0, 15)`). -/
def arithSafe (s : List Char) : List Char := s.take 15

/-- The terminal interval `[low, high)` of the narrowing loop. -/
def arithInterval (s : List Char) : Frac × Frac :=
  (arithNarrow (arithProbsOf (arithSafe s)) (arithSafe s) ⟨0, 1⟩ ⟨1, 1⟩).2

/-- The returned tag: the midpoint `(low + high) / 2`. -/
def arithTag (s : List Char) : Frac :=
  ((arithInterval s).1.add (arithInterval s).2).mul ⟨1, 2⟩

/-- Decimal formatting of a non-negative value to 10 fixed fraction
digits, the model of `tag.toFixed(10)` (round half up; exact at every
value the claims touch). -/
def fracToFixed10 (a : Frac) : List Char :=
  let scaled := (a.num * 10 ^ 10 * 2 + a.den) / (2 * a.den)
  let n := scaled.toNat
  decStr (n / 10 ^ 10) ++ '.' :: padStart 10 '0' (decStr (n % 10 ^ 10))

/-- `compressArithmetic` of `src/services/algorithms.ts` (see the
section comment for the two unmodelled float fields). -/
def compressArithmetic (s : List Char) : ArithResult :=
  if s.isEmpty then zeroArith
  else
    let safe := arithSafe s
    let probs := arithProbsOf safe
    let run := arithNarrow probs safe ⟨0, 1⟩ ⟨1, 1⟩
    let tag := (run.2.1.add run.2.2).mul ⟨1, 2⟩
    let truncated := decide (15 < s.length)
    ⟨fracToFixed10 tag ++ (if truncated then "...".toList else []),
      safe.length * 8, run.1, probs, truncated⟩

/-! ### Tunstall (`compressTunstall`) -/

/-- A working-dictionary entry `{ seq, prob }`. -/
structure TEntry where
  seq : List Char
  prob : Frac
deriving DecidableEq

/-- One Tunstall trace step: `{ seq, code }`. -/
structure TunStep where
  seq : List Char
  code : List Char
deriving DecidableEq

/-- The Tunstall output record: the shared fields plus the
sequence-to-code map (`dictionary`). -/
structure TunstallResult where
  encoded : List Char
  originalSize : Nat
  compressedSize : Nat
  ratio : ℚ
  steps : List TunStep
  dictionary : List (List Char × List Char)
deriving DecidableEq

/-- The zero-valued Tunstall result for empty input. -/
def zeroTunstall : TunstallResult := ⟨[], 0, 0, 0, [], []⟩

/-- Stable insertion into a list sorted by descending probability
(stable JS `sort((a, b) => b.prob - a.prob)` when applied by
`sortProbDesc`; the comparator's float subtraction agrees in sign with
the exact comparison on all values the claims exercise). -/
def insProbDesc (x : TEntry) : List TEntry → List TEntry
  | [] => [x]
  | y :: ys => if y.prob.leB x.prob then x :: y :: ys else y :: insProbDesc x ys

/-- Stable descending sort by probability. -/
def sortProbDesc (l : List TEntry) : List TEntry :=
  l.foldr insProbDesc []

/-- The probability of an alphabet symbol (`freqs[char] / total`). -/
def tunProb (fl : List (Char × Nat)) (total : Nat) (c : Char) : Frac :=
  Frac.ofDiv ((dictFind fl c).getD 0) total

/-- Replacing the removed best entry: one new entry per alphabet
symbol, the removed sequence extended by the symbol, probabilities
multiplied. -/
def tunExpand (fl : List (Char × Nat)) (total : Nat) (alpha : List Char) (best : TEntry) : List TEntry :=
  alpha.map (fun c => ⟨best.seq ++ [c], best.prob.mul (tunProb fl total c)⟩)

/-- The dictionary-growth `while` loop of `compressTunstall`: while
`dictionary.length + alphabet.length - 1 ≤ 16`, sort by descending
probability, shift the best entry (an empty dictionary breaks the
loop), and push its expansions.  The `Bool` of the result is `true`
when the loop exited by its own condition and `false` when fuel ran
out before it did; 17 units of fuel cover every terminating run
(alphabets of 2 or more symbols grow the dictionary by at least one
entry per iteration within the 16-entry cap; larger alphabets never
enter the loop; a 1-symbol alphabet never exits, see `claim_C1`). -/
def tunstallGrow (fl : List (Char × Nat)) (total : Nat) (alpha : List Char) : Nat → List TEntry → List TEntry × Bool
  | 0, dict => (dict, false)
  | fuel + 1, dict =>
    if dict.length + alpha.length - 1 ≤ 16 then
      match sortProbDesc dict with
      | [] => (dict, true)
      | best :: rest => tunstallGrow fl total alpha fuel (rest ++ tunExpand fl total alpha best)
    else (dict, true)

/-- The seeded working dictionary: one entry per alphabet symbol. -/
def tunSeed (fl : List (Char × Nat)) (total : Nat) : List TEntry :=
  fl.map (fun p => ⟨[p.1], Frac.ofDiv p.2 total⟩)

/-- The grown dictionary of an input together with the exit flag. -/
def tunFinal (s : List Char) : List TEntry × Bool :=
  tunstallGrow (freqList s) s.length ((freqList s).map Prod.fst) 17 (tunSeed (freqList s) s.length)

/-- The code map: each final dictionary entry keyed by its sequence,
valued by its insertion-order index in 4 binary digits
(`index.toString(2).padStart(4, '0')`). -/
def tunCodeMap (s : List Char) : List (List Char × List Char) :=
  (withIdx 0 (tunFinal s).1).map (fun p => (p.2.seq, padStart 4 '0' (natToBin p.1)))

/-- Stable insertion into a list of keys sorted by descending length
(stable JS `sort((a, b) => b.length - a.length)` when applied by
`sortLenDesc`). -/
def insLenDesc (x : List Char) : List (List Char) → List (List Char)
  | [] => [x]
  | y :: ys => if y.length ≤ x.length then x :: y :: ys else y :: insLenDesc x ys

/-- Stable descending sort of the code-map keys by length. -/
def sortLenDesc (l : List (List Char)) : List (List Char) :=
  l.foldr insLenDesc []

/-- The greedy tokenizer of `compressTunstall`: at each position, the
first (longest, keys being sorted by descending length) key matching
the remaining input emits its code and advances by its length; no
match emits the sentinel `"ERR"` and advances one character.  Fuel is
the remaining input length: every key is non-empty, so each iteration
consumes at least one character. -/
def tunTokenize (keys : List (List Char)) (cmap : List (List Char × List Char)) : Nat → List Char → List Char × List TunStep
  | 0, _ => ([], [])
  | _ + 1, [] => ([], [])
  | fuel + 1, c :: rest =>
    match keys.find? (fun k => codePreB k (c :: rest)) with
    | some k =>
      let code := (dictFind cmap k).getD undefStr
      let p := tunTokenize keys cmap fuel ((c :: rest).drop k.length)
      (code ++ p.1, ⟨k, code⟩ :: p.2)
    | none =>
      let p := tunTokenize keys cmap fuel rest
      ("ERR".toList ++ p.1, ⟨[c], "ERR".toList⟩ :: p.2)

/-- `compressTunstall` of `src/services/algorithms.ts`. -/
def compressTunstall (s : List Char) : TunstallResult :=
  if s.isEmpty then zeroTunstall
  else
    let cmap := tunCodeMap s
    let keys := sortLenDesc (cmap.map Prod.fst)
    let p := tunTokenize keys cmap s.length s
    ⟨p.1, s.length * 8, p.1.length, ratioOf p.1.length (s.length * 8), p.2, cmap⟩

/-! ### Predicates used by the claims -/

/-- Two code-table entries are compatible: same symbol, or neither
code is a prefix of the other. -/
def okPair (x y : Char × List Char) : Bool :=
  x.1 == y.1 || (!codePreB x.2 y.2 && !codePreB y.2 x.2)

/-- Pairwise compatibility of a code table. -/
def pairsOK : List (Char × List Char) → Bool
  | [] => true
  | x :: xs => xs.all (okPair x) && pairsOK xs

/-- A Golomb input token the parser drops: `parseInt` yields `NaN`, or
a negative value. -/
def golombDroppedB (t : List Char) : Bool :=
  match jsParseInt t with
  | none => true
  | some n => decide (n < 0)

/-- The invariant of the LZW scan under byte-range input: the pending
prefix is empty or present in the dictionary, every single byte
remains present, and every emitted code was found. -/
def LZWInv (st : LZWState) : Prop :=
  (st.w = [] ∨ (dictFind st.dict st.w).isSome = true) ∧
  (∀ c : Char, c.toNat < 256 → (dictFind st.dict [c]).isSome = true) ∧
  (∀ x ∈ st.codes, x.isSome = true)

/-- The rational value of a fraction is determined by cross
multiplication, provided both denominators are non-zero. -/
theorem Frac.toRat_eq_div (a : Frac) (n : Int) (d : Nat)
    (h : a.num * d = n * a.den) (hd : a.den ≠ 0) (hd2 : d ≠ 0) :
    a.toRat = (n : ℚ) / (d : ℚ) := by
  have hden : ((a.den : ℚ)) ≠ 0 := by exact_mod_cast hd
  have hd2q : ((d : ℚ)) ≠ 0 := by exact_mod_cast hd2
  rw [Frac.toRat, div_eq_div_iff hden hd2q]
  exact_mod_cast h

/-- Cross multiplication decides strict order of fraction values when
both denominators are positive. -/
theorem Frac.toRat_lt (a b : Frac) (ha : 0 < a.den) (hb : 0 < b.den)
    (h : a.num * b.den < b.num * a.den) : a.toRat < b.toRat := by
  have haq : (0 : ℚ) < (a.den : ℚ) := by exact_mod_cast ha
  have hbq : (0 : ℚ) < (b.den : ℚ) := by exact_mod_cast hb
  rw [Frac.toRat, Frac.toRat, div_lt_div_iff₀ haq hbq]
  exact_mod_cast h

/-! ## Claim C9 — RLE worked example -/

/-- C9: `compressRLE` on `"AAAAAAABBBCCDDDDDDEEE"` produces exactly the
five run steps `(A,7), (B,3), (C,2), (D,6), (E,3)` in order, the
encoded stream `"7A3B2C6D3E"`, `compressedSize = 80` (16 bits per run)
and `originalSize = 168` (8 bits per character). -/
theorem claim_C9 :
    (compressRLE (String.toList "AAAAAAABBBCCDDDDDDEEE")).steps =
      [⟨'A', 7, String.toList "7A"⟩, ⟨'B', 3, String.toList "3B"⟩,
        ⟨'C', 2, String.toList "2C"⟩, ⟨'D', 6, String.toList "6D"⟩,
        ⟨'E', 3, String.toList "3E"⟩] ∧
    (compressRLE (String.toList "AAAAAAABBBCCDDDDDDEEE")).encoded = String.toList "7A3B2C6D3E" ∧
    (compressRLE (String.toList "AAAAAAABBBCCDDDDDDEEE")).compressedSize = 80 ∧
    (compressRLE (String.toList "AAAAAAABBBCCDDDDDDEEE")).originalSize = 168 := by
  decide

/-! ## Claim C2 — Golomb worked example

The claim (and §8 of the spec) miscomputes the truncated-binary
split: for `M = 4` the code has `b = 2` and
`cutoff = 2^b - M = 4 - 4 = 0`, not 2; the remainder `2 ≥ 0` is
therefore written as `(2 + 0)` in 2 bits, `"10"`, and the codeword for
`10` is `"11010"`, not `"11000"`. -/

/-- C2 counterexample: on input `"10"` with divisor 4 the code does not
produce the claimed codeword `"11000"`, and the cutoff is not 2. -/
theorem claim_C2_cex :
    (compressGolomb (String.toList "10") 4).encoded ≠ String.toList "11000" ∧
    golombCutoff 4 ≠ 2 := by
  decide

/-- C2 amended: `compressGolomb` with divisor `M = 4` on the single
number `10` computes `b = 2` and `cutoff = 2^2 - 4 = 0`,
`quotient = 2` and `remainder = 2`, unary part `"110"`, and — since
the remainder 2 is ≥ the cutoff 0 — a binary part equal to `(2 + 0)`
written in 2 bits, `"10"`, so the emitted codeword is `"11010"`. -/
theorem claim_C2 :
    golombB 4 = 2 ∧ golombCutoff 4 = 0 ∧
    (compressGolomb (String.toList "10") 4).steps =
      [⟨10, 2, 2, String.toList "110", String.toList "10", String.toList "11010"⟩] ∧
    (compressGolomb (String.toList "10") 4).encoded = String.toList "11010" := by
  decide

/-! ## Claim C8 — arithmetic coding on `"BABA"` -/

/-- C8: on input `"BABA"` the terminal interval of the narrowing loop
is `[5/8, 11/16)` — in particular non-empty — and the tag midpoint
`(low + high) / 2` lies strictly inside it; the last trace step of the
returned result records the same terminal bounds, so the interval is
the one determined by the result's own probability table. -/
theorem claim_C8 :
    (arithInterval (String.toList "BABA")).1.toRat = 5 / 8 ∧
    (arithInterval (String.toList "BABA")).2.toRat = 11 / 16 ∧
    (arithInterval (String.toList "BABA")).1.toRat < (arithInterval (String.toList "BABA")).2.toRat ∧
    (arithInterval (String.toList "BABA")).1.toRat < (arithTag (String.toList "BABA")).toRat ∧
    (arithTag (String.toList "BABA")).toRat < (arithInterval (String.toList "BABA")).2.toRat ∧
    (compressArithmetic (String.toList "BABA")).steps.getLast? =
      some ⟨'A', (arithInterval (String.toList "BABA")).1, (arithInterval (String.toList "BABA")).2⟩ := by
  refine ⟨?_, ?_, ?_, ?_, ?_, ?_⟩
  · exact Frac.toRat_eq_div _ 5 8 (by decide) (by decide) (by decide)
  · exact Frac.toRat_eq_div _ 11 16 (by decide) (by decide) (by decide)
  · exact Frac.toRat_lt _ _ (by decide) (by decide) (by decide)
  · exact Frac.toRat_lt _ _ (by decide) (by decide) (by decide)
  · exact Frac.toRat_lt _ _ (by decide) (by decide) (by decide)
  · decide

/-! ## Claim C6 — empty and degenerate input -/

/-- C6: every encoder maps the empty input to the zero-valued result
(empty encoded stream, sizes 0, ratio 0, no steps) instead of failing
or dividing by zero, and `compressGolomb` does the same whenever
parsing leaves no valid numbers.  (For the arithmetic encoder the
model omits the two entropy-derived float fields, which the source's
empty-input branch also returns as literal zeros.) -/
theorem claim_C6 :
    compressRLE [] = zeroResult RLEStep ∧
    compressHuffman [] = zeroHuffman ∧
    compressLZW [] = zeroResult LZWStep ∧
    compressArithmetic [] = zeroArith ∧
    compressTunstall [] = zeroTunstall ∧
    ∀ (s : List Char) (m : Int), golombNumbers s = [] →
      compressGolomb s m = zeroResult GolombStep := by
  refine ⟨rfl, rfl, rfl, rfl, rfl, ?_⟩
  intro s m h
  simp [compressGolomb, golombFromNumbers, h]

/-- C6 witness: a Golomb input whose tokens are all dropped by parsing
(`"abc, -5"`) yields the zero-valued result. -/
theorem claim_C6_witness :
    compressGolomb (String.toList "abc, -5") 7 = zeroResult GolombStep :=
  claim_C6.2.2.2.2.2 (String.toList "abc, -5") 7 (by decide)

/-! ## Growth-loop lemmas shared by C1 and C5 -/

/-- Inserting into the probability-sorted list adds one element. -/
theorem insProbDesc_length (x : TEntry) : ∀ l : List TEntry,
    (insProbDesc x l).length = l.length + 1
  | [] => rfl
  | y :: ys => by
    simp only [insProbDesc]
    by_cases h : y.prob.leB x.prob = true
    · simp [h]
    · simp [h, insProbDesc_length x ys]

/-- The probability sort preserves length. -/
theorem sortProbDesc_length : ∀ l : List TEntry,
    (sortProbDesc l).length = l.length
  | [] => rfl
  | x :: xs => by
    simp only [sortProbDesc, List.foldr_cons]
    rw [insProbDesc_length]
    exact congrArg (· + 1) (sortProbDesc_length xs)

/-- With a one-symbol alphabet the growth loop never exits: each
iteration removes the single entry and pushes exactly one replacement,
so the dictionary length stays 1 and the loop condition
`1 + 1 - 1 ≤ 16` holds forever. -/
theorem tunstallGrow_one (fl : List (Char × Nat)) (total : Nat) (c : Char) :
    ∀ (fuel : Nat) (dict : List TEntry), dict.length = 1 →
      (tunstallGrow fl total [c] fuel dict).2 = false ∧
      (tunstallGrow fl total [c] fuel dict).1.length = 1 := by
  intro fuel
  induction fuel with
  | zero => intro dict h; exact ⟨rfl, h⟩
  | succ n ih =>
    intro dict h
    have hlen : (sortProbDesc dict).length = 1 := by rw [sortProbDesc_length]; exact h
    match hs : sortProbDesc dict with
    | [] => rw [hs] at hlen; simp at hlen
    | e :: e2 :: rest => rw [hs] at hlen; simp at hlen
    | [e] =>
      have hguard : dict.length + [c].length - 1 ≤ 16 := by rw [h]; simp
      have step : tunstallGrow fl total [c] (n + 1) dict =
          tunstallGrow fl total [c] n ([] ++ tunExpand fl total [c] e) := by
        rw [tunstallGrow, if_pos hguard, hs]
      rw [step]
      exact ih _ (by simp [tunExpand])

/-! ## Claim C1 — termination of the encoders

The spec asserts every encoder invocation terminates; the code
violates this.  For a non-empty input whose alphabet has exactly one
distinct symbol (witness `"AA"`), the Tunstall growth loop never
exits: the exit flag stays `false` for every fuel bound, i.e. the
loop guard of the source still holds after every number of
iterations, so `compressTunstall("AA")` runs forever. -/

/-- C1 (refuting theorem): the Tunstall growth loop on input `"AA"`
does not exit within any number of iterations — in particular the
17-step bound of `tunFinal` (which covers every terminating run of the
source loop) reports non-exit. -/
theorem claim_C1 :
    (∀ fuel : Nat,
      (tunstallGrow (freqList (String.toList "AA")) (String.toList "AA").length
        ((freqList (String.toList "AA")).map Prod.fst) fuel
        (tunSeed (freqList (String.toList "AA")) (String.toList "AA").length)).2 = false) ∧
    (tunFinal (String.toList "AA")).2 = false := by
  have halpha : (freqList (String.toList "AA")).map Prod.fst = ['A'] := by decide
  have hseed : (tunSeed (freqList (String.toList "AA")) (String.toList "AA").length).length = 1 := by
    decide
  constructor
  · intro fuel
    rw [halpha]
    exact (tunstallGrow_one _ _ _ fuel _ hseed).1
  · show (tunstallGrow _ _ _ 17 _).2 = false
    rw [halpha]
    exact (tunstallGrow_one _ _ _ 17 _ hseed).1

/-! ## Claim C5 — dictionary capacity and code width -/

/-- Expanding a removed entry yields one entry per alphabet symbol. -/
theorem tunExpand_length (fl : List (Char × Nat)) (total : Nat) (alpha : List Char) (best : TEntry) :
    (tunExpand fl total alpha best).length = alpha.length := by
  simp [tunExpand]

/-- Every iteration the growth loop actually performs keeps the
dictionary within the 16-entry capacity, so a dictionary that starts
within capacity ends within capacity. -/
theorem tunstallGrow_len_le (fl : List (Char × Nat)) (total : Nat) (alpha : List Char) :
    ∀ (fuel : Nat) (dict : List TEntry), dict.length ≤ 16 →
      (tunstallGrow fl total alpha fuel dict).1.length ≤ 16 := by
  intro fuel
  induction fuel with
  | zero => intro dict h; exact h
  | succ n ih =>
    intro dict h
    rw [tunstallGrow]
    by_cases hguard : dict.length + alpha.length - 1 ≤ 16
    · rw [if_pos hguard]
      match hs : sortProbDesc dict with
      | [] => exact h
      | best :: rest =>
        have hlen : rest.length + 1 = dict.length := by
          have := sortProbDesc_length dict
          rw [hs] at this
          simpa using this
        apply ih
        rw [List.length_append, tunExpand_length]
        omega
    · rw [if_neg hguard]
      exact h

/-- With an alphabet of at least two symbols every performed iteration
grows the dictionary by at least one entry, so the loop exits within
the fuel bound whenever `16 ≤ fuel + dict.length`. -/
theorem tunstallGrow_exits (fl : List (Char × Nat)) (total : Nat) (alpha : List Char)
    (halpha : 2 ≤ alpha.length) :
    ∀ (fuel : Nat) (dict : List TEntry), 16 ≤ fuel + dict.length →
      (tunstallGrow fl total alpha (fuel + 1) dict).2 = true := by
  intro fuel
  induction fuel with
  | zero =>
    intro dict h
    rw [tunstallGrow]
    have hguard : ¬ (dict.length + alpha.length - 1 ≤ 16) := by omega
    rw [if_neg hguard]
  | succ n ih =>
    intro dict h
    rw [tunstallGrow]
    by_cases hguard : dict.length + alpha.length - 1 ≤ 16
    · rw [if_pos hguard]
      match hs : sortProbDesc dict with
      | [] => rfl
      | best :: rest =>
        have hlen : rest.length + 1 = dict.length := by
          have := sortProbDesc_length dict
          rw [hs] at this
          simpa using this
        apply ih
        rw [List.length_append, tunExpand_length]
        omega
    · rw [if_neg hguard]

/-- Indexing preserves length. -/
theorem withIdx_length {α : Type} : ∀ (l : List α) (k : Nat),
    (withIdx k l).length = l.length
  | [], _ => rfl
  | _ :: as, k => by simp [withIdx, withIdx_length as (k + 1)]

/-- Every index produced by `withIdx` is below `k + length`. -/
theorem withIdx_mem_lt {α : Type} : ∀ (l : List α) (k : Nat) (p : Nat × α),
    p ∈ withIdx k l → p.1 < k + l.length := by
  intro l
  induction l with
  | nil => intro k p h; simp [withIdx] at h
  | cons a as ih =>
    intro k p h
    rw [withIdx, List.mem_cons] at h
    rcases h with h | h
    · subst h; simp
    · have := ih (k + 1) p h
      simp only [List.length_cons]
      omega

/-- Indices below 16 print to exactly 4 characters after padding. -/
theorem padBin4_len : ∀ i : Nat, i < 16 → (padStart 4 '0' (natToBin i)).length = 4 := by
  decide

/-- C5 (amended): for every input with at least 2 and at most 16
distinct symbols — within these bounds the source's growth loop
genuinely terminates, cf. C1 — the final Tunstall dictionary has at
most 16 entries, the growth loop exits by its own condition, and every
code in the code map is exactly 4 bits (its entry's insertion-order
index in 4 binary digits, which is what `tunCodeMap` assigns).  The
original claim extends this to alphabets of more than 16 symbols,
which `claim_C5_cex` refutes: there the loop indeed never executes,
but the dictionary then has `alphabetSize > 16` entries and the codes
of indices ≥ 16 are longer than 4 bits. -/
theorem claim_C5 (s : List Char) (h2 : 2 ≤ (freqList s).length)
    (h16 : (freqList s).length ≤ 16) :
    (compressTunstall s).dictionary.length ≤ 16 ∧
    (tunFinal s).2 = true ∧
    (compressTunstall s).dictionary.all (fun p => p.2.length == 4) = true := by
  have hne : s.isEmpty = false := by
    cases s with
    | nil => simp [freqList] at h2
    | cons c rest => rfl
  have hdict : (compressTunstall s).dictionary = tunCodeMap s := by
    rw [compressTunstall, hne]
    rfl
  have hseedlen : (tunSeed (freqList s) s.length).length = (freqList s).length := by
    simp [tunSeed]
  have hfinal_le : (tunFinal s).1.length ≤ 16 := by
    rw [tunFinal]
    apply tunstallGrow_len_le
    rw [hseedlen]
    exact h16
  have hcm_len : (tunCodeMap s).length = (tunFinal s).1.length := by
    rw [tunCodeMap, List.length_map, withIdx_length]
  refine ⟨?_, ?_, ?_⟩
  · rw [hdict, hcm_len]; exact hfinal_le
  · rw [tunFinal]
    apply tunstallGrow_exits
    · rw [List.length_map]; exact h2
    · omega
  · rw [hdict]
    rw [List.all_eq_true]
    intro p hp
    rw [tunCodeMap, List.mem_map] at hp
    obtain ⟨q, hq, rfl⟩ := hp
    have hlt : q.1 < 16 := by
      have := withIdx_mem_lt _ 0 q hq
      omega
    simpa using padBin4_len q.1 hlt

/-- C5 witness: the two-symbol input `"AAB"` satisfies the hypotheses
and hence the capacity and code-width conclusions. -/
theorem claim_C5_witness :
    (compressTunstall (String.toList "AAB")).dictionary.length ≤ 16 ∧
    (tunFinal (String.toList "AAB")).2 = true ∧
    (compressTunstall (String.toList "AAB")).dictionary.all (fun p => p.2.length == 4) = true :=
  claim_C5 (String.toList "AAB") (by decide) (by decide)

/-- C5 counterexample: on the 17-distinct-symbol input
`"ABCDEFGHIJKLMNOPQ"` the claim as stated fails — the dictionary does
not have at most 16 entries and not every code is 4 bits (the entry of
index 16 gets the 5-bit code `"10000"`). -/
theorem claim_C5_cex :
    ¬ ((compressTunstall (String.toList "ABCDEFGHIJKLMNOPQ")).dictionary.length ≤ 16 ∧
      (compressTunstall (String.toList "ABCDEFGHIJKLMNOPQ")).dictionary.all
        (fun p => p.2.length == 4) = true) := by
  decide

/-! ## Claim C3 — Huffman codes are prefix-free -/

/-- Two codes that extend a common stem by different characters are not
prefixes of one another. -/
theorem codePreB_ne_branch : ∀ (p u v : List Char) (c d : Char), c ≠ d →
    codePreB (p ++ c :: u) (p ++ d :: v) = false := by
  intro p
  induction p with
  | nil =>
    intro u v c d h
    simp only [List.nil_append, codePreB, Bool.and_eq_false_imp]
    simp [h]
  | cons a p ih =>
    intro u v c d h
    simp only [List.cons_append, codePreB, beq_self_eq_true, Bool.true_and]
    exact ih u v c d h

/-- Every code generated under accumulated stem `p` extends `p`. -/
theorem genCodes_ext : ∀ (t : HTree) (p : List Char) (x : Char × List Char),
    x ∈ genCodes t p → ∃ u, x.2 = p ++ u := by
  intro t
  induction t with
  | leaf c f =>
    intro p x h
    simp only [genCodes, List.mem_singleton] at h
    exact ⟨[], by rw [h, List.append_nil]⟩
  | node f l r ihl ihr =>
    intro p x h
    rw [genCodes, List.mem_append] at h
    rcases h with h | h
    · obtain ⟨u, hu⟩ := ihl (p ++ ['0']) x h
      exact ⟨'0' :: u, by rw [hu]; simp⟩
    · obtain ⟨u, hu⟩ := ihr (p ++ ['1']) x h
      exact ⟨'1' :: u, by rw [hu]; simp⟩

/-- Pairwise compatibility of an appended table follows from the two
parts and cross compatibility. -/
theorem pairsOK_append : ∀ (L R : List (Char × List Char)),
    pairsOK L = true → pairsOK R = true →
    (∀ x ∈ L, ∀ y ∈ R, okPair x y = true) → pairsOK (L ++ R) = true := by
  intro L
  induction L with
  | nil => intro R _ hR _; exact hR
  | cons x xs ih =>
    intro R hL hR hx
    rw [pairsOK, Bool.and_eq_true] at hL
    rw [List.cons_append, pairsOK, Bool.and_eq_true]
    constructor
    · rw [List.all_append, Bool.and_eq_true]
      exact ⟨hL.1, by
        rw [List.all_eq_true]
        intro y hy
        exact hx x (List.mem_cons_self x xs) y hy⟩
    · exact ih R hL.2 hR (fun a ha y hy => hx a (List.mem_cons_of_mem x ha) y hy)

/-- The code table generated from any Huffman tree is pairwise
compatible: codes of entries at distinct positions never prefix each
other (left codes extend the stem by `'0'`, right codes by `'1'`). -/
theorem genCodes_pairsOK : ∀ (t : HTree) (p : List Char), pairsOK (genCodes t p) = true := by
  intro t
  induction t with
  | leaf c f => intro p; rfl
  | node f l r ihl ihr =>
    intro p
    rw [genCodes]
    apply pairsOK_append _ _ (ihl _) (ihr _)
    intro x hx y hy
    obtain ⟨u, hu⟩ := genCodes_ext l (p ++ ['0']) x hx
    obtain ⟨v, hv⟩ := genCodes_ext r (p ++ ['1']) y hy
    have hu2 : x.2 = p ++ '0' :: u := by rw [hu]; simp
    have hv2 : y.2 = p ++ '1' :: v := by rw [hv]; simp
    have h1 : codePreB x.2 y.2 = false := by
      rw [hu2, hv2]; exact codePreB_ne_branch p u v '0' '1' (by decide)
    have h2 : codePreB y.2 x.2 = false := by
      rw [hu2, hv2]; exact codePreB_ne_branch p v u '1' '0' (by decide)
    rw [okPair, h1, h2]
    simp

/-- In a pairwise-compatible table, an entry whose symbol differs from
that of a given compatible partner is not a prefix of it in either
direction. -/
theorem okPair_no_pre (z y : Char × List Char) (h : okPair z y = true) (hne : z.1 ≠ y.1) :
    codePreB z.2 y.2 = false ∧ codePreB y.2 z.2 = false := by
  have hb : (z.1 == y.1) = false := by rw [beq_eq_false_iff_ne]; exact hne
  simp only [okPair, hb, Bool.false_or, Bool.and_eq_true, Bool.not_eq_true'] at h
  exact h

/-- A pairwise-compatible table has no prefix relation between the
codes of two entries with different symbols, wherever they sit. -/
theorem pairsOK_no_pre : ∀ (l : List (Char × List Char)), pairsOK l = true →
    ∀ x ∈ l, ∀ y ∈ l, x.1 ≠ y.1 → codePreB x.2 y.2 = false := by
  intro l
  induction l with
  | nil => intro _ x hx; simp at hx
  | cons z zs ih =>
    intro h x hx y hy hne
    rw [pairsOK, Bool.and_eq_true, List.all_eq_true] at h
    rcases List.mem_cons.mp hx with rfl | hx' <;> rcases List.mem_cons.mp hy with rfl | hy'
    · exact absurd rfl hne
    · exact (okPair_no_pre x y (h.1 y hy') hne).1
    · exact (okPair_no_pre y x (h.1 x hx') (Ne.symm hne)).2
    · exact ih h.2 x hx' y hy' hne

/-- C3: for every input with at least two distinct symbols, the
Huffman code table (`dictionary`) is prefix-free — the code of a
symbol is never a prefix of the code of a different symbol. -/
theorem claim_C3 (s : List Char) (h2 : 2 ≤ (freqList s).length) :
    ∀ x ∈ (compressHuffman s).dictionary, ∀ y ∈ (compressHuffman s).dictionary,
      x.1 ≠ y.1 → codePreB x.2 y.2 = false := by
  have hne : s.isEmpty = false := by
    cases s with
    | nil => simp [freqList] at h2
    | cons c rest => rfl
  rcases hfl : freqList s with _ | ⟨x0, _ | ⟨y0, rest⟩⟩
  · rw [hfl] at h2; simp at h2
  · rw [hfl] at h2; simp at h2
  · have hdict : (compressHuffman s).dictionary =
        genCodes (buildLoop ((x0 :: y0 :: rest).map (fun p => HTree.leaf p.1 p.2)).length
          ((x0 :: y0 :: rest).map (fun p => HTree.leaf p.1 p.2))) [] := by
      rw [compressHuffman, hne]
      simp only [Bool.false_eq_true, if_false, hfl]
    rw [hdict]
    exact pairsOK_no_pre _ (genCodes_pairsOK _ _)

/-- C3 witness: for input `"AB"` the table assigns `'A' ↦ "0"` and
`'B' ↦ "1"`, and `"0"` is indeed not a prefix of `"1"`. -/
theorem claim_C3_witness : codePreB (('A', ['0']) : Char × List Char).2 ('B', ['1']).2 = false :=
  claim_C3 (String.toList "AB") (by decide) ('A', ['0']) (by decide) ('B', ['1']) (by decide)
    (by decide)

/-! ## Claim C4 — trace steps reproduce the encoded stream -/

/-- The RLE scan appends to the stream exactly the codes it records. -/
theorem rleAux_concat : ∀ (rest : List Char) (c : Char) (count : Nat),
    (rleAux c count rest).1 = ((rleAux c count rest).2.map RLEStep.code).flatten := by
  intro rest
  induction rest with
  | nil => intro c count; simp [rleAux]
  | cons d rest ih =>
    intro c count
    rw [rleAux]
    by_cases h : c = d
    · rw [if_pos h]
      exact ih c (count + 1)
    · rw [if_neg h]
      simp only [List.map_cons, List.flatten_cons]
      rw [← ih d 1]

/-- The Golomb encoding loop appends to the stream exactly the codes it
records. -/
theorem golombEncodeAux_concat (M : Nat) : ∀ ns : List Nat,
    (golombEncodeAux M ns).1 = ((golombEncodeAux M ns).2.map GolombStep.code).flatten := by
  intro ns
  induction ns with
  | nil => rfl
  | cons n ns ih =>
    rw [golombEncodeAux]
    simp only [List.map_cons, List.flatten_cons]
    rw [← ih]

/-- The Tunstall tokenizer appends to the stream exactly the codes it
records, for any fuel, key list and code map. -/
theorem tunTokenize_concat (keys : List (List Char)) (cmap : List (List Char × List Char)) :
    ∀ (fuel : Nat) (s : List Char),
      (tunTokenize keys cmap fuel s).1 = ((tunTokenize keys cmap fuel s).2.map TunStep.code).flatten := by
  intro fuel
  induction fuel with
  | zero => intro s; rfl
  | succ n ih =>
    intro s
    match s with
    | [] => rfl
    | c :: rest =>
      rw [tunTokenize]
      match keys.find? (fun k => codePreB k (c :: rest)) with
      | some k =>
        simp only [List.map_cons, List.flatten_cons]
        rw [← ih]
      | none =>
        simp only [List.map_cons, List.flatten_cons]
        rw [← ih]

/-- C4: for every input, concatenating the `code` fields of the trace
steps in order reproduces the `encoded` stream, for `compressRLE`,
`compressGolomb` (any divisor) and `compressTunstall`.  The Tunstall
part is stated for the inputs on which its growth loop exits — on the
others the source function never returns a result at all (see C1). -/
theorem claim_C4 :
    (∀ s : List Char,
      ((compressRLE s).steps.map RLEStep.code).flatten = (compressRLE s).encoded) ∧
    (∀ (s : List Char) (m : Int),
      ((compressGolomb s m).steps.map GolombStep.code).flatten = (compressGolomb s m).encoded) ∧
    (∀ s : List Char, (tunFinal s).2 = true →
      ((compressTunstall s).steps.map TunStep.code).flatten = (compressTunstall s).encoded) := by
  refine ⟨?_, ?_, ?_⟩
  · intro s
    cases s with
    | nil => rfl
    | cons c rest => exact (rleAux_concat rest c 1).symm
  · intro s m
    rw [compressGolomb, golombFromNumbers]
    by_cases h : (golombNumbers s).isEmpty
    · rw [if_pos h]; rfl
    · rw [if_neg h]
      exact (golombEncodeAux_concat _ _).symm
  · intro s _
    rw [compressTunstall]
    by_cases h : s.isEmpty
    · rw [if_pos h]; rfl
    · rw [if_neg h]
      exact (tunTokenize_concat _ _ _ _).symm

/-- C4 witness: the Tunstall conjunct applied to the two-symbol input
`"AB"`, whose growth loop exits. -/
theorem claim_C4_witness :
    ((compressTunstall (String.toList "AB")).steps.map TunStep.code).flatten =
      (compressTunstall (String.toList "AB")).encoded :=
  claim_C4.2.2 (String.toList "AB") (by decide)

/-! ## Claim C7 — Golomb parsing silently drops invalid tokens -/

/-- Scanning a separator-free chunk only moves it into the token
accumulator. -/
theorem splitAux_chunk : ∀ (t rest acc : List Char), (∀ c ∈ t, isSep c = false) →
    splitAux (t ++ rest) false acc = splitAux rest false (acc ++ t) := by
  intro t
  induction t with
  | nil => intro rest acc _; rw [List.nil_append, List.append_nil]
  | cons c t ih =>
    intro rest acc hgood
    have hc : isSep c = false := hgood c (List.mem_cons_self c t)
    rw [List.cons_append, splitAux, hc]
    simp only [Bool.false_eq_true, if_false]
    rw [ih rest (acc ++ [c]) (fun d hd => hgood d (List.mem_cons_of_mem c hd)),
      List.append_assoc]
    rfl

/-- After a separator, a non-separator character starts a fresh token
whether or not further separators were being skipped. -/
theorem splitAux_skip_eq (c : Char) (xs : List Char) (hc : isSep c = false) :
    splitAux (c :: xs) true [] = splitAux (c :: xs) false [] := by
  rw [splitAux, splitAux, hc]
  simp

/-- Splitting the space-join of non-empty separator-free tokens
recovers exactly those tokens. -/
theorem split_join : ∀ ts : List (List Char), ts ≠ [] →
    (∀ t ∈ ts, t ≠ [] ∧ ∀ c ∈ t, isSep c = false) →
    splitSeps (joinSpace ts) = ts := by
  intro ts
  induction ts with
  | nil => intro h; exact absurd rfl h
  | cons t ts ih =>
    intro _ hgood
    match ts with
    | [] =>
      show splitAux (joinSpace [t]) false [] = [t]
      rw [joinSpace]
      have h := splitAux_chunk t [] [] (hgood t (List.mem_cons_self t [])).2
      rw [List.append_nil] at h
      rw [h]
      rfl
    | t2 :: ts' =>
      have ht2 := hgood t2 (List.mem_cons_of_mem t (List.mem_cons_self t2 ts'))
      have hrec : splitAux (joinSpace (t2 :: ts')) false [] = t2 :: ts' :=
        ih (by simp) (fun tok htok => hgood tok (List.mem_cons_of_mem t htok))
      have hmain : splitAux (joinSpace (t2 :: ts')) true [] = t2 :: ts' := by
        obtain ⟨c, t2', rfl⟩ : ∃ c t2'', t2 = c :: t2'' := by
          match t2, ht2.1 with
          | c :: t2', _ => exact ⟨c, t2', rfl⟩
          | [], h => exact absurd rfl h
        have hc : isSep c = false := ht2.2 c (List.mem_cons_self c t2')
        obtain ⟨xs, hxs⟩ : ∃ xs, joinSpace ((c :: t2') :: ts') = c :: (t2' ++ xs) := by
          match ts' with
          | [] => exact ⟨[], by rw [joinSpace, List.append_nil]⟩
          | t3 :: ts'' => exact ⟨' ' :: joinSpace (t3 :: ts''), by rw [joinSpace]; rfl⟩
        rw [hxs] at hrec ⊢
        rw [splitAux_skip_eq c (t2' ++ xs) hc]
        exact hrec
      show splitAux (joinSpace (t :: t2 :: ts')) false [] = t :: t2 :: ts'
      rw [joinSpace,
        splitAux_chunk t (' ' :: joinSpace (t2 :: ts')) []
          (hgood t (List.mem_cons_self t (t2 :: ts'))).2,
        List.nil_append]
      show splitAux (' ' :: joinSpace (t2 :: ts')) false t = t :: t2 :: ts'
      rw [splitAux]
      have hsep : isSep ' ' = true := by decide
      rw [hsep]
      simp only [if_true]
      rw [hmain]

/-- The trace of the Golomb encoding loop records exactly the encoded
numbers, in order. -/
theorem golombEncodeAux_numbers (M : Nat) : ∀ ns : List Nat,
    (golombEncodeAux M ns).2.map GolombStep.number = ns := by
  intro ns
  induction ns with
  | nil => rfl
  | cons n ns ih =>
    rw [golombEncodeAux]
    simp only [List.map_cons]
    rw [ih]
    rfl

/-- A dropped token contributes nothing to the filtered number list. -/
theorem dropped_filter (t : List Char) (hdrop : golombDroppedB t = true)
    (ts1 ts2 : List (List Char)) :
    (((ts1 ++ t :: ts2).filterMap jsParseInt).filter (fun n => 0 ≤ n)) =
    (((ts1 ++ ts2).filterMap jsParseInt).filter (fun n => 0 ≤ n)) := by
  rw [List.filterMap_append, List.filterMap_append, List.filterMap_cons]
  match h : jsParseInt t with
  | none => rfl
  | some n =>
    rw [golombDroppedB] at hdrop
    rw [h] at hdrop
    have hn : n < 0 := of_decide_eq_true hdrop
    have hfalse : (decide (0 ≤ n)) = false := decide_eq_false (by omega)
    rw [List.filter_append, List.filter_append, List.filter_cons, hfalse]
    simp

/-- C7: a token on which `parseInt` yields `NaN`, or a negative value,
is silently dropped — removing it from the token stream leaves the
entire result (encoded stream, both sizes, trace steps) unchanged —
and the numbers the trace records are exactly the surviving valid
non-negative integers. -/
theorem claim_C7 :
    (∀ (ts1 ts2 : List (List Char)) (t : List Char) (m : Int),
      (∀ tok ∈ ts1 ++ t :: ts2, tok ≠ [] ∧ ∀ c ∈ tok, isSep c = false) →
      golombDroppedB t = true →
      compressGolomb (joinSpace (ts1 ++ t :: ts2)) m = compressGolomb (joinSpace (ts1 ++ ts2)) m) ∧
    (∀ (s : List Char) (m : Int),
      (compressGolomb s m).steps.map GolombStep.number = golombNumbers s) := by
  constructor
  · intro ts1 ts2 t m hgood hdrop
    have hnum : golombNumbers (joinSpace (ts1 ++ t :: ts2)) =
        golombNumbers (joinSpace (ts1 ++ ts2)) := by
      by_cases hne : ts1 ++ ts2 = []
      · obtain ⟨rfl, rfl⟩ := List.append_eq_nil.mp hne
        rw [golombNumbers, golombNumbers, split_join ([] ++ t :: []) (by simp) hgood]
        have h1 := dropped_filter t hdrop [] []
        simp only [List.nil_append] at h1 ⊢
        rw [h1]
        rfl
      · rw [golombNumbers, golombNumbers,
          split_join (ts1 ++ t :: ts2) (by simp) hgood,
          split_join (ts1 ++ ts2) hne (by
            intro tok htok
            refine hgood tok ?_
            rcases List.mem_append.mp htok with h | h
            · exact List.mem_append.mpr (Or.inl h)
            · exact List.mem_append.mpr (Or.inr (List.mem_cons_of_mem t h))),
          dropped_filter t hdrop ts1 ts2]
    rw [compressGolomb, compressGolomb, hnum]
  · intro s m
    rw [compressGolomb, golombFromNumbers]
    by_cases h : (golombNumbers s).isEmpty
    · rw [if_pos h]
      rw [List.isEmpty_iff] at h
      rw [h]
      rfl
    · rw [if_neg h]
      exact golombEncodeAux_numbers _ _

/-- C7 witness: dropping the non-numeric token `"abc"` from
`"3 abc 5"` leaves the Golomb result unchanged. -/
theorem claim_C7_witness :
    compressGolomb (joinSpace ([String.toList "3"] ++ String.toList "abc" :: [String.toList "5"])) 4 =
      compressGolomb (joinSpace ([String.toList "3"] ++ [String.toList "5"])) 4 :=
  claim_C7.1 [String.toList "3"] [String.toList "5"] (String.toList "abc") 4 (by decide) (by decide)

/-! ## Claim C10 — LZW lookups succeed on byte-range input -/

/-- Every byte below `n` is a key of the seeded dictionary. -/
theorem lzwSeedAux_mem : ∀ (n : Nat) (c : Char), c.toNat < n →
    (dictFind (lzwSeedAux n) [c]).isSome = true := by
  intro n
  induction n with
  | zero => intro c hc; omega
  | succ n ih =>
    intro c hc
    rw [lzwSeedAux, dictFind]
    by_cases h : [c] = [Char.ofNat n]
    · rw [if_pos h]; rfl
    · rw [if_neg h]
      refine ih c ?_
      have hne : c.toNat ≠ n := by
        intro he
        exact h (by rw [← he, Char.ofNat_toNat])
      omega

/-- Consing a new entry onto a dictionary preserves key presence. -/
theorem dictFind_cons_mono {κ ν : Type} [DecidableEq κ] (k : κ) (v : ν)
    (d : List (κ × ν)) (key : κ) (h : (dictFind d key).isSome = true) :
    (dictFind ((k, v) :: d) key).isSome = true := by
  rw [dictFind]
  by_cases hk : key = k
  · rw [if_pos hk]; rfl
  · rw [if_neg hk]; exact h

/-- One loop iteration on a byte-range character preserves the
invariant. -/
theorem lzwStepF_inv (st : LZWState) (c : Char) (hc : c.toNat < 256)
    (h : LZWInv st) : LZWInv (lzwStepF st c) := by
  obtain ⟨hw, hbytes, hcodes⟩ := h
  rw [lzwStepF]
  match hfind : dictFind st.dict (st.w ++ [c]) with
  | some v =>
    exact ⟨Or.inr (by rw [hfind]; rfl), hbytes, hcodes⟩
  | none =>
    have hwlook : (dictFind st.dict st.w).isSome = true := by
      rcases hw with hnil | hsome
      · exfalso
        rw [hnil, List.nil_append] at hfind
        have := hbytes c hc
        rw [hfind] at this
        exact Bool.false_ne_true this
      · exact hsome
    refine ⟨Or.inr (dictFind_cons_mono _ _ _ _ (hbytes c hc)), ?_, ?_⟩
    · intro d hd
      exact dictFind_cons_mono _ _ _ _ (hbytes d hd)
    · intro x hx
      rcases List.mem_append.mp hx with hx | hx
      · exact hcodes x hx
      · rw [List.mem_singleton] at hx
        rw [hx, hwlook]

/-- The whole scan preserves the invariant on byte-range input. -/
theorem lzwRun_inv : ∀ (s : List Char), (∀ c ∈ s, c.toNat < 256) →
    ∀ st : LZWState, LZWInv st → LZWInv (lzwRun st s) := by
  intro s
  induction s with
  | nil => intro _ st h; exact h
  | cons c rest ih =>
    intro hs st h
    rw [lzwRun]
    exact ih (fun d hd => hs d (List.mem_cons_of_mem c hd)) _
      (lzwStepF_inv st c (hs c (List.mem_cons_self c rest)) h)

/-- Flushing a state that satisfies the invariant leaves every emitted
code defined. -/
theorem lzwFlush_codes (st : LZWState) (h : LZWInv st) :
    ∀ x ∈ (lzwFlush st).codes, x.isSome = true := by
  obtain ⟨hw, _, hcodes⟩ := h
  rw [lzwFlush]
  by_cases hnil : st.w = []
  · rw [if_pos hnil]; exact hcodes
  · rw [if_neg hnil]
    intro x hx
    rcases List.mem_append.mp hx with hx | hx
    · exact hcodes x hx
    · rw [List.mem_singleton] at hx
      rcases hw with hw | hw
      · exact absurd hw hnil
      · rw [hx, hw]

/-- The initial LZW state satisfies the invariant. -/
theorem lzwInit_inv : LZWInv ⟨[], lzwSeed, 256, [], []⟩ :=
  ⟨Or.inl rfl, fun c hc => lzwSeedAux_mem 256 c hc, fun x hx => absurd hx (List.not_mem_nil x)⟩

/-- C10: for an input all of whose characters have code points below
256, every code `compressLZW` emits is defined (`some`): each looked-up
prefix is a seeded single byte or a previously inserted string.  The
emitted code list is exactly what the result renders space-joined into
`encoded`.  The guarantee is conditional: for the one-character input
with code point 256 the very first lookup misses the seeded dictionary
and an undefined code is emitted. -/
theorem claim_C10 :
    (∀ s : List Char, (∀ c ∈ s, c.toNat < 256) →
      (lzwCodes s).all Option.isSome = true) ∧
    (∀ s : List Char, s.isEmpty = false →
      (compressLZW s).encoded = joinSpace ((lzwCodes s).map renderCode)) ∧
    (lzwCodes [Char.ofNat 256]).all Option.isSome = false := by
  refine ⟨?_, ?_, ?_⟩
  · intro s hs
    rw [List.all_eq_true]
    intro x hx
    exact lzwFlush_codes _ (lzwRun_inv s hs _ lzwInit_inv) x hx
  · intro s hne
    rw [compressLZW, hne]
    rfl
  · decide

/-- C10 witness: input `"AB"` is byte-range, all its codes are
defined, and the encoded field renders exactly them. -/
theorem claim_C10_witness :
    (lzwCodes (String.toList "AB")).all Option.isSome = true ∧
    (compressLZW (String.toList "AB")).encoded =
      joinSpace ((lzwCodes (String.toList "AB")).map renderCode) :=
  ⟨claim_C10.1 (String.toList "AB") (by decide),
    claim_C10.2.1 (String.toList "AB") (by decide)⟩

end CompressionModel
